import Mathlib

/-!
Verification of the `serde_bare` BARE codec (encode/decode engine).

The definitions below are a shallow embedding of the Rust sources:
machine integers are `Nat` / `Int` with explicit `% 2 ^ w` where wraparound
matters, byte streams are `List Nat` (each entry a byte value), and fallible
operations return `Except Error`.  Each definition's doc comment names the
source item it embeds.
-/

namespace SerdeBare

/-- The error enum of `src/error.rs`.  The `Io(io::Error)` payload is elided
(the engine only ever constructs it from a failed read/write).  `ser.rs` and
`de.rs` additionally reference the variants `SequenceLengthRequired` and
`InvalidChar`, which this cross-revision snapshot's `error.rs` does not list;
they are included here because the serializer/deserializer code returns them. -/
inductive Error where
  | Message (msg : String)
  | IoError
  | AnyUnsupported
  | I128Unsupported
  | U128Unsupported
  | IdentifierUnsupported
  | InvalidUtf8
  | InvalidChar
  | LengthOverflow
  | MapLengthRequired
  | SequenceLengthRequired
deriving DecidableEq

/-- `impl Serialize for Uint` (src/lib.rs): the loop
`while x >= 0x80 { buf[i] = (x as u8) | 0x80; x >>= 7; i += 1 } buf[i] = x as u8`,
with the buffered bytes emitted in order through `serialize_tuple` /
`serialize_element` (each element is written as a single `u8`).
`(x as u8)` is `x % 256`. -/
def encode_uint (x : Nat) : List Nat :=
  if x < 0x80 then [x % 256]
  else ((x % 256) ||| 0x80) :: encode_uint (x >>> 7)
termination_by x
decreasing_by
  simp only [Nat.shiftRight_eq_div_pow]
  exact Nat.div_lt_self (by omega) (by norm_num)

/-- The loop of `UintVisitor::visit_seq` (src/lib.rs), reading from the
remaining byte stream: `x` is the `u64` accumulator, `s` the bit offset, `i`
the byte index.  An exhausted stream corresponds to `read_exact` failing
inside `deserialize_u8`, surfaced as `Error::Io`.  The guard and the two
accumulation expressions are those of the source
(`i > 9 || i == 9 && b > 1`, `x | (b as u64) << s`,
`x |= ((b & 0x7f) as u64) << s`), with `u64` arithmetic as `% 2 ^ 64`. -/
def uint_visit_seq (x s i : Nat) : List Nat → Except Error (Nat × List Nat)
  | [] => .error .IoError
  | b :: rest =>
    if 9 < i ∨ (i = 9 ∧ 1 < b) then
      .error (.Message "continuation bit indicated an invalid variable-length integer")
    else if b < 0x80 then
      .ok ((x ||| (b <<< s)) % 2 ^ 64, rest)
    else
      uint_visit_seq ((x ||| ((b &&& 0x7f) <<< s)) % 2 ^ 64) (s + 7) (i + 1) rest

/-- `<Uint as Deserialize>::deserialize` (src/lib.rs), which runs
`UintVisitor::visit_seq` through `deserialize_tuple(usize::MAX, _)`:
the visitor starts with a zero accumulator, zero shift and byte index 0.
Returns the decoded value and the unconsumed remainder of the stream. -/
def decode_uint (input : List Nat) : Except Error (Nat × List Nat) :=
  uint_visit_seq 0 0 0 input

/-! ### Bitwise-to-arithmetic bridge lemmas -/

/-- A value or-ed into disjoint high bits is an addition:
`a ||| (b <<< s) = a + b * 2 ^ s` when `a < 2 ^ s`. -/
theorem lor_shiftLeft_eq_add {a : Nat} (b s : Nat) (h : a < 2 ^ s) :
    a ||| (b <<< s) = a + b * 2 ^ s := by
  rw [Nat.shiftLeft_eq, Nat.mul_comm b, Nat.lor_comm, ← Nat.mul_add_lt_is_or h,
    Nat.add_comm]

/-- `(x as u8) | 0x80` in terms of arithmetic: `(x % 256) ||| 128 = x % 128 + 128`. -/
theorem byte_or_continuation (x : Nat) : (x % 256) ||| 128 = x % 128 + 128 := by
  have h2 : x % 256 = x % 128 + 128 * (x / 128 % 2) := by omega
  have hlt : x % 128 < 2 ^ 7 := by omega
  have hone : x % 128 + 128 = 128 ||| x % 128 := by
    have := Nat.mul_add_lt_is_or hlt 1
    simpa [Nat.add_comm] using this
  have hcases : x / 128 % 2 = 0 ∨ x / 128 % 2 = 1 := by omega
  rcases hcases with h | h
  · rw [h2, h]
    simp only [Nat.mul_zero, Nat.add_zero]
    rw [hone, Nat.lor_comm]
  · rw [h2, h, Nat.mul_one, hone]
    rw [Nat.lor_comm (128 ||| x % 128) 128, ← Nat.lor_assoc]
    simp [Nat.lor_comm]

/-- Masking with `0x7f` is `% 128`. -/
theorem and_0x7f_eq_mod (b : Nat) : b &&& 0x7f = b % 128 := by
  have := Nat.and_pow_two_sub_one_eq_mod b 7
  norm_num at this
  simpa using this

/-! ### Varint encoder facts -/

theorem encode_uint_of_lt {x : Nat} (h : x < 0x80) : encode_uint x = [x] := by
  rw [encode_uint]
  simp [h, Nat.mod_eq_of_lt (by omega : x < 256)]

theorem encode_uint_of_ge {x : Nat} (h : 0x80 ≤ x) :
    encode_uint x = (x % 128 + 128) :: encode_uint (x / 128) := by
  rw [encode_uint]
  simp only [Nat.shiftRight_eq_div_pow]
  norm_num [Nat.not_lt.mpr h, byte_or_continuation]

theorem encode_uint_length_pos (x : Nat) : 0 < (encode_uint x).length := by
  rw [encode_uint]
  split <;> simp

theorem encode_uint_lt_pow (x : Nat) : x < 128 ^ (encode_uint x).length := by
  induction x using Nat.strong_induction_on with
  | _ x ih =>
    by_cases h : x < 0x80
    · rw [encode_uint_of_lt h]
      simpa using h
    · rw [encode_uint_of_ge (by omega)]
      have hx : x / 128 < x := Nat.div_lt_self (by omega) (by norm_num)
      have := ih (x / 128) hx
      simp only [List.length_cons, pow_succ]
      have h128 : x < (x / 128 + 1) * 128 := by omega
      calc x < (x / 128 + 1) * 128 := h128
        _ ≤ 128 ^ (encode_uint (x / 128)).length * 128 := by
            exact Nat.mul_le_mul_right 128 (by omega)

theorem encode_uint_minimal (x : Nat) :
    (encode_uint x).length = 1 ∨ 128 ^ ((encode_uint x).length - 1) ≤ x := by
  induction x using Nat.strong_induction_on with
  | _ x ih =>
    by_cases h : x < 0x80
    · rw [encode_uint_of_lt h]; left; rfl
    · rw [encode_uint_of_ge (by omega)]
      right
      have hx : x / 128 < x := Nat.div_lt_self (by omega) (by norm_num)
      rcases ih (x / 128) hx with h1 | h1
      · simp only [List.length_cons, h1]
        omega
      · simp only [List.length_cons, Nat.add_sub_cancel]
        have hpos := encode_uint_length_pos (x / 128)
        calc 128 ^ (encode_uint (x / 128)).length
            = 128 ^ ((encode_uint (x / 128)).length - 1) * 128 := by
              rw [← pow_succ]
              congr 1
              omega
          _ ≤ x / 128 * 128 := Nat.mul_le_mul_right 128 h1
          _ ≤ x := Nat.div_mul_le_self x 128

theorem encode_uint_length_le_ten {x : Nat} (h : x < 2 ^ 64) :
    (encode_uint x).length ≤ 10 := by
  rcases encode_uint_minimal x with h1 | h1
  · omega
  · by_contra hgt
    have h10 : 10 ≤ (encode_uint x).length - 1 := by omega
    have : (128 : Nat) ^ 10 ≤ 128 ^ ((encode_uint x).length - 1) :=
      Nat.pow_le_pow_right (by norm_num) h10
    have : (128 : Nat) ^ 10 ≤ x := le_trans this h1
    norm_num at this
    omega

/-! ### Varint decoder-of-encoder correctness -/

theorem uint_visit_seq_encode (x : Nat) :
    ∀ a i rest, i ≤ 9 → a < 2 ^ (7 * i) → x < 2 ^ (64 - 7 * i) →
      uint_visit_seq a (7 * i) i (encode_uint x ++ rest) =
        .ok (a + x * 2 ^ (7 * i), rest) := by
  induction x using Nat.strong_induction_on with
  | _ x ih =>
    intro a i rest hi ha hx
    by_cases h : x < 0x80
    · rw [encode_uint_of_lt h]
      simp only [List.cons_append, List.nil_append, uint_visit_seq]
      have hguard : ¬(9 < i ∨ (i = 9 ∧ 1 < x)) := by
        rintro (h9 | ⟨h9, hb⟩)
        · omega
        · subst h9
          norm_num at hx
          omega
      rw [if_neg hguard, if_pos h, lor_shiftLeft_eq_add x (7 * i) ha]
      have hbound : a + x * 2 ^ (7 * i) < 2 ^ 64 := by
        have hx' : x + 1 ≤ 2 ^ (64 - 7 * i) := hx
        calc a + x * 2 ^ (7 * i) < 2 ^ (7 * i) + x * 2 ^ (7 * i) := by omega
          _ = (x + 1) * 2 ^ (7 * i) := by ring
          _ ≤ 2 ^ (64 - 7 * i) * 2 ^ (7 * i) := Nat.mul_le_mul_right _ hx'
          _ = 2 ^ 64 := by
              rw [← pow_add]
              congr 1
              omega
      rw [Nat.mod_eq_of_lt hbound]
      rfl
    · rw [encode_uint_of_ge (by omega)]
      simp only [List.cons_append, uint_visit_seq]
      have hi8 : i ≤ 8 := by
        by_contra hgt
        have : i = 9 := by omega
        subst this
        norm_num at hx
        omega
      have hguard : ¬(9 < i ∨ (i = 9 ∧ 1 < x % 128 + 128)) := by
        rintro (h9 | ⟨h9, _⟩) <;> omega
      rw [if_neg hguard, if_neg (by omega : ¬(x % 128 + 128 < 0x80))]
      rw [and_0x7f_eq_mod]
      have hmod : (x % 128 + 128) % 128 = x % 128 := by omega
      rw [hmod, lor_shiftLeft_eq_add (x % 128) (7 * i) ha]
      have hstep : a + x % 128 * 2 ^ (7 * i) < 2 ^ (7 * (i + 1)) := by
        have h1 : x % 128 * 2 ^ (7 * i) ≤ 127 * 2 ^ (7 * i) :=
          Nat.mul_le_mul_right _ (by omega)
        have h2 : 2 ^ (7 * (i + 1)) = 128 * 2 ^ (7 * i) := by
          rw [Nat.mul_add, pow_add]
          ring
        omega
      have hsmall : a + x % 128 * 2 ^ (7 * i) < 2 ^ 64 := by
        have : (2 : Nat) ^ (7 * (i + 1)) ≤ 2 ^ 64 :=
          Nat.pow_le_pow_right (by norm_num) (by omega)
        omega
      rw [Nat.mod_eq_of_lt hsmall]
      have harg : 7 * i + 7 = 7 * (i + 1) := by ring
      rw [harg]
      have hxdiv : x / 128 < 2 ^ (64 - 7 * (i + 1)) := by
        have hsub : 64 - 7 * i = (64 - 7 * (i + 1)) + 7 := by omega
        rw [hsub, pow_add] at hx
        norm_num at hx
        omega
      have hrec := ih (x / 128) (Nat.div_lt_self (by omega) (by norm_num))
        (a + x % 128 * 2 ^ (7 * i)) (i + 1) rest (by omega) hstep hxdiv
      have happ : (encode_uint (x / 128)).append rest = encode_uint (x / 128) ++ rest := rfl
      rw [happ, hrec]
      have hsplit : x % 128 * 2 ^ (7 * i) + x / 128 * 2 ^ (7 * (i + 1))
          = x * 2 ^ (7 * i) := by
        have h2 : 2 ^ (7 * (i + 1)) = 2 ^ (7 * i) * 128 := by
          rw [Nat.mul_add, pow_add]
          norm_num
        rw [h2]
        have hx128 : x % 128 + 128 * (x / 128) = x := Nat.mod_add_div x 128
        calc x % 128 * 2 ^ (7 * i) + x / 128 * (2 ^ (7 * i) * 128)
            = (x % 128 + 128 * (x / 128)) * 2 ^ (7 * i) := by ring
          _ = x * 2 ^ (7 * i) := by rw [hx128]
      have hfin : a + x % 128 * 2 ^ (7 * i) + x / 128 * 2 ^ (7 * (i + 1))
          = a + x * 2 ^ (7 * i) := by omega
      rw [hfin]

/-- Decoding the encoding of any `u64` value recovers it and consumes exactly
the encoded bytes. -/
theorem decode_encode_uint {x : Nat} (h : x < 2 ^ 64) (rest : List Nat) :
    decode_uint (encode_uint x ++ rest) = .ok (x, rest) := by
  have := uint_visit_seq_encode x 0 0 rest (by omega) (by norm_num) (by simpa using h)
  simpa [decode_uint] using this

/-! ### Varint decoder rejection of malformed input -/

theorem uint_visit_seq_continuation (l : List Nat) :
    ∀ a s i tail, (∀ c ∈ l, 0x80 ≤ c) → i + l.length ≤ 9 →
      ∃ a', uint_visit_seq a s i (l ++ tail)
        = uint_visit_seq a' (s + 7 * l.length) (i + l.length) tail := by
  induction l with
  | nil =>
    intro a s i tail _ _
    exact ⟨a, by simp⟩
  | cons b l ih =>
    intro a s i tail hc hlen
    simp only [List.cons_append, uint_visit_seq]
    have hb : 0x80 ≤ b := hc b (by simp)
    have hlen' : i + (l.length + 1) ≤ 9 := by simpa using hlen
    rw [if_neg (by rintro (h9 | ⟨h9, _⟩) <;> omega), if_neg (by omega)]
    obtain ⟨a', hrec⟩ := ih ((a ||| (b &&& 127) <<< s) % 2 ^ 64) (s + 7) (i + 1) tail
      (fun c hc' => hc c (by simp [hc'])) (by omega)
    have happ : l.append tail = l ++ tail := rfl
    rw [happ, hrec]
    refine ⟨a', ?_⟩
    congr 1 <;> simp <;> omega

theorem decode_uint_tenth_byte_error {l : List Nat} {b : Nat} (rest : List Nat)
    (hlen : l.length = 9) (hcont : ∀ c ∈ l, 0x80 ≤ c) (hb : 1 < b) :
    decode_uint (l ++ b :: rest)
      = .error (.Message "continuation bit indicated an invalid variable-length integer") := by
  obtain ⟨a', h⟩ := uint_visit_seq_continuation l 0 0 0 (b :: rest) hcont (by omega)
  rw [decode_uint, h, hlen]
  simp [uint_visit_seq, hb]

theorem decode_uint_exhausted {l : List Nat}
    (hcont : ∀ c ∈ l, 0x80 ≤ c) (hlen : l.length ≤ 9) :
    decode_uint l = .error .IoError := by
  obtain ⟨a', h⟩ := uint_visit_seq_continuation l 0 0 0 [] hcont (by omega)
  rw [decode_uint, ← List.append_nil l, h]
  rfl

/-! ### Zigzag signed codec -/

/-- `impl Serialize for Int` (src/lib.rs):
`let mut ux = (x as u64) << 1; if x < 0 { ux = !ux; }`.
`(x as u64)` is the two's-complement image `(x % 2 ^ 64).toNat`; the `u64`
shift wraps mod `2 ^ 64`; `!ux` on `u64` is `2 ^ 64 - 1 - ux`. -/
def int_zigzag (x : Int) : Nat :=
  let ux : Nat := ((x % 2 ^ 64).toNat <<< 1) % 2 ^ 64
  if x < 0 then 2 ^ 64 - 1 - ux else ux

/-- `impl Serialize for Int` (src/lib.rs): zigzag, then the `Uint` encoding. -/
def encode_int (x : Int) : List Nat := encode_uint (int_zigzag x)

/-- `impl Deserialize for Int` (src/lib.rs): after the `Uint` decoder returns
`ux`, compute `let mut x = (ux >> 1) as i64; if ux & 1 != 0 { x = !x; }`.
For `ux < 2 ^ 64` the cast `(ux >> 1) as i64` is exact (the value is below
`2 ^ 63`), and `!x` on `i64` is `-x - 1`. -/
def int_unzigzag (ux : Nat) : Int :=
  let x : Int := (ux >>> 1 : Nat)
  if ux &&& 1 ≠ 0 then -x - 1 else x

/-- `impl Deserialize for Int` (src/lib.rs): `Uint` decode then un-zigzag. -/
def decode_int (input : List Nat) : Except Error (Int × List Nat) :=
  match decode_uint input with
  | .error e => .error e
  | .ok (ux, rest) => .ok (int_unzigzag ux, rest)

theorem int_zigzag_lt (x : Int) : int_zigzag x < 2 ^ 64 := by
  simp only [int_zigzag, Nat.shiftLeft_eq]
  split <;> omega

theorem int_unzigzag_int_zigzag {x : Int} (h1 : -(2 ^ 63) ≤ x) (h2 : x < 2 ^ 63) :
    int_unzigzag (int_zigzag x) = x := by
  simp only [int_zigzag, int_unzigzag, Nat.shiftLeft_eq, Nat.shiftRight_eq_div_pow,
    Nat.and_one_is_mod]
  norm_num
  split <;> split <;> omega

/-- Decoding the encoding of any `i64` value recovers it and consumes exactly
the encoded bytes. -/
theorem decode_encode_int {x : Int} (h1 : -(2 ^ 63) ≤ x) (h2 : x < 2 ^ 63)
    (rest : List Nat) : decode_int (encode_int x ++ rest) = .ok (x, rest) := by
  rw [encode_int, decode_int, decode_encode_uint (int_zigzag_lt x) rest]
  simp [int_unzigzag_int_zigzag h1 h2]

/-! ### Claim theorems: varint and zigzag (C2, C3, C4) -/

/-- C2: Serializing `Uint(x)` always produces the minimal-length base-128
varint encoding (1 to 10 bytes for every `u64` value): the byte count `L`
satisfies `1 ≤ L ≤ 10`, `x < 128 ^ L`, and no shorter encoding could hold `x`
(`L = 1` or `128 ^ (L - 1) ≤ x`); and the exact byte vectors hold:
`Uint(0) ↦ [0]`, `Uint(1) ↦ [1]`, `Uint(275) ↦ [147, 2]`,
`Uint(u64::MAX) ↦ [255, 255, 255, 255, 255, 255, 255, 255, 255, 1]`. -/
theorem c2_encode_uint_minimal :
    (∀ x : Nat, x < 2 ^ 64 →
      1 ≤ (encode_uint x).length ∧ (encode_uint x).length ≤ 10 ∧
      x < 128 ^ (encode_uint x).length ∧
      ((encode_uint x).length = 1 ∨ 128 ^ ((encode_uint x).length - 1) ≤ x)) ∧
    encode_uint 0 = [0] ∧ encode_uint 1 = [1] ∧ encode_uint 275 = [147, 2] ∧
    encode_uint (2 ^ 64 - 1) = [255, 255, 255, 255, 255, 255, 255, 255, 255, 1] := by
  refine ⟨fun x hx => ⟨encode_uint_length_pos x, encode_uint_length_le_ten hx,
    encode_uint_lt_pow x, encode_uint_minimal x⟩, ?_, ?_, ?_, ?_⟩ <;> simp [encode_uint]

/-- Witness for C2 at the concrete input `x = 275`. -/
theorem c2_encode_uint_minimal_witness :
    (275 : Nat) < 2 ^ 64 ∧
    (1 ≤ (encode_uint 275).length ∧ (encode_uint 275).length ≤ 10 ∧
      275 < 128 ^ (encode_uint 275).length ∧
      ((encode_uint 275).length = 1 ∨ 128 ^ ((encode_uint 275).length - 1) ≤ 275)) :=
  ⟨by norm_num, c2_encode_uint_minimal.1 275 (by norm_num)⟩

/-- C3: the zigzag signed codec is exact over the full `i64` range — for every
`x` with `-2^63 ≤ x < 2^63`, decoding the serialization of `Int(x)` yields
`Int(x)` (and consumes exactly the encoded bytes) — and the exact byte vectors
hold for `0`, `1`, `i64::MIN` and `i64::MAX`. -/
theorem c3_int_zigzag_roundtrip :
    (∀ (x : Int) (rest : List Nat), -(2 ^ 63) ≤ x → x < 2 ^ 63 →
      decode_int (encode_int x ++ rest) = .ok (x, rest)) ∧
    encode_int 0 = [0x00] ∧ encode_int 1 = [0x02] ∧
    encode_int (-(2 ^ 63)) = [255, 255, 255, 255, 255, 255, 255, 255, 255, 1] ∧
    encode_int (2 ^ 63 - 1) = [254, 255, 255, 255, 255, 255, 255, 255, 255, 1] := by
  refine ⟨fun x rest h1 h2 => decode_encode_int h1 h2 rest, ?_, ?_, ?_, ?_⟩
  all_goals
    rw [encode_int]
    norm_num [int_zigzag]
    simp [encode_uint]

/-- Witness for C3 at the concrete input `x = i64::MIN`. -/
theorem c3_int_zigzag_roundtrip_witness :
    -(2 ^ 63) ≤ (-(2 ^ 63) : Int) ∧ (-(2 ^ 63) : Int) < 2 ^ 63 ∧
    decode_int (encode_int (-(2 ^ 63)) ++ [7]) = .ok (-(2 ^ 63), [7]) :=
  ⟨le_refl _, by norm_num,
    c3_int_zigzag_roundtrip.1 (-(2 ^ 63)) [7] (le_refl _) (by norm_num)⟩

/-- C4: deserializing a `Uint` returns an error (never a value) on every
overlong or oversized varint: if the first nine bytes all carry the
continuation bit, then a tenth byte that also carries the continuation bit, or
whose 7-bit payload exceeds 1, makes the decoder return the invalid-varint
message error; and if every available byte carries the continuation bit and
the stream ends within nine bytes, the decoder returns the I/O error. -/
theorem c4_decode_uint_rejects_malformed :
    (∀ (l : List Nat) (b : Nat) (rest : List Nat),
      l.length = 9 → (∀ c ∈ l, 0x80 ≤ c) → 0x80 ≤ b →
      decode_uint (l ++ b :: rest)
        = .error (.Message "continuation bit indicated an invalid variable-length integer")) ∧
    (∀ (l : List Nat) (b : Nat) (rest : List Nat),
      l.length = 9 → (∀ c ∈ l, 0x80 ≤ c) → 1 < b &&& 0x7f →
      decode_uint (l ++ b :: rest)
        = .error (.Message "continuation bit indicated an invalid variable-length integer")) ∧
    (∀ l : List Nat, (∀ c ∈ l, 0x80 ≤ c) → l.length ≤ 9 →
      decode_uint l = .error .IoError) := by
  refine ⟨fun l b rest hlen hc hb => ?_, fun l b rest hlen hc hb => ?_,
    fun l hc hlen => decode_uint_exhausted hc hlen⟩
  · exact decode_uint_tenth_byte_error rest hlen hc (by omega)
  · have : b &&& 0x7f ≤ b := Nat.and_le_left
    exact decode_uint_tenth_byte_error rest hlen hc (by omega)

/-- Witness for C4 at the inputs of the crate's own tests:
eleven bytes of which the first ten carry the continuation bit, nine
continuation bytes followed by `2`, and a three-byte truncated varint. -/
theorem c4_decode_uint_rejects_malformed_witness :
    decode_uint (List.replicate 9 255 ++ 255 :: [1])
      = .error (.Message "continuation bit indicated an invalid variable-length integer") ∧
    decode_uint (List.replicate 9 255 ++ 2 :: [])
      = .error (.Message "continuation bit indicated an invalid variable-length integer") ∧
    decode_uint [255, 255, 255] = .error .IoError := by
  refine ⟨c4_decode_uint_rejects_malformed.1 (List.replicate 9 255) 255 [1]
      (by simp) (by decide) (by norm_num),
    c4_decode_uint_rejects_malformed.2.1 (List.replicate 9 255) 2 []
      (by simp) (by decide) (by decide),
    c4_decode_uint_rejects_malformed.2.2 [255, 255, 255] (by decide) (by decide)⟩

/-! ### The BARE data model -/

/-- Schema types: the wire types of the BARE format as driven through the
serde data model (spec §3).  `tuple` covers `[N]T`, Rust tuples, tuple
structs and `struct`s (all serialize their fields in declaration order with
no header); `enum` lists each variant's payload as its field types (a unit
variant has `[]`, a newtype variant a single field). -/
inductive Ty where
  | bool
  | u8
  | u16
  | u32
  | u64
  | i8
  | i16
  | i32
  | i64
  | f32
  | f64
  | char
  | str
  | data
  | uint
  | int
  | option (t : Ty)
  | seq (t : Ty)
  | tuple (ts : List Ty)
  | map (k v : Ty)
  | enum (variants : List (List Ty))

/-- Host values.  Machine integers are `Nat` / `Int`; floats are represented
by their IEEE-754 bit patterns (`fN::to_le_bytes` / `from_le_bytes` copy the
bit pattern unchanged, and the spec compares floats by bit pattern); a string
is its UTF-8 byte content (a Rust `String` stores exactly those bytes); a map
is its entry list in iteration/insertion order. -/
inductive Value where
  | vBool (b : Bool)
  | vU8 (n : Nat)
  | vU16 (n : Nat)
  | vU32 (n : Nat)
  | vU64 (n : Nat)
  | vI8 (n : Int)
  | vI16 (n : Int)
  | vI32 (n : Int)
  | vI64 (n : Int)
  | vF32 (bits : Nat)
  | vF64 (bits : Nat)
  | vChar (c : Nat)
  | vStr (bytes : List Nat)
  | vData (bytes : List Nat)
  | vUint (n : Nat)
  | vInt (n : Int)
  | vNone
  | vSome (v : Value)
  | vSeq (elems : List Value)
  | vTuple (fields : List Value)
  | vMap (entries : List (Value × Value))
  | vEnum (idx : Nat) (fields : List Value)

/-- `uN::to_le_bytes`: the `w` little-endian bytes of `x`. -/
def toLeBytes : Nat → Nat → List Nat
  | 0, _ => []
  | w + 1, x => x % 256 :: toLeBytes w (x / 256)

/-- `uN::from_le_bytes`. -/
def fromLeBytes : List Nat → Nat
  | [] => 0
  | b :: bs => b + 256 * fromLeBytes bs

/-- `iN::to_le_bytes`: the little-endian bytes of the two's-complement image
`x mod 2^(8w)`. -/
def toLeBytesSigned (w : Nat) (x : Int) : List Nat :=
  toLeBytes w (x % ((2 : Int) ^ (8 * w))).toNat

/-- `iN::from_le_bytes`: two's-complement reading of `w` little-endian
bytes. -/
def fromLeBytesSigned (w : Nat) (bs : List Nat) : Int :=
  let u := fromLeBytes bs
  if 2 ^ (8 * w - 1) ≤ u then (u : Int) - 2 ^ (8 * w) else (u : Int)

/-- `Read::read_exact` into a `w`-byte buffer, as used by all fixed-width
paths of src/de.rs: `Error::Io` when the source is exhausted first. -/
def read_exact (w : Nat) (input : List Nat) : Except Error (List Nat × List Nat) :=
  if input.length < w then .error .IoError
  else .ok (input.take w, input.drop w)

/-- src/de.rs `read_bytes`: `reader.take(len).read_to_end(&mut buffer)` reads
whatever is available, up to `len` bytes, then fails with `UnexpectedEof`
(surfaced as `Error::Io`) if fewer than `len` bytes were read. -/
def read_bytes (len : Nat) (input : List Nat) : Except Error (List Nat × List Nat) :=
  let buffer := input.take len
  if buffer.length < len then .error .IoError
  else .ok (buffer, input.drop len)

/-- src/de.rs `read_bytes`: the initial buffer allocation is
`len.min(4096)` — the claimed length is not trusted for an up-front
allocation. -/
def read_bytes_capacity (len : Nat) : Nat := min len 4096

/-- UTF-8 validity of a byte sequence, as decided by `str::from_utf8`
(Rust core's `run_utf8_validation`): ASCII bytes stand alone; `0xC2..0xDF`
lead a 2-byte sequence; `0xE0..0xEF` a 3-byte sequence (with the `0xE0` and
`0xED` continuation restrictions excluding overlong forms and surrogates);
`0xF0..0xF4` a 4-byte sequence (with the `0xF0` and `0xF4` restrictions);
continuation bytes are `0x80..0xBF`. -/
def validUtf8 : List Nat → Bool
  | [] => true
  | b :: rest =>
    if b < 0x80 then validUtf8 rest
    else if b < 0xC2 then false
    else if b < 0xE0 then
      match rest with
      | c1 :: r => decide (0x80 ≤ c1 ∧ c1 < 0xC0) && validUtf8 r
      | _ => false
    else if b < 0xF0 then
      match rest with
      | c1 :: c2 :: r =>
        (if b = 0xE0 then decide (0xA0 ≤ c1 ∧ c1 < 0xC0)
         else if b = 0xED then decide (0x80 ≤ c1 ∧ c1 < 0xA0)
         else decide (0x80 ≤ c1 ∧ c1 < 0xC0)) &&
        decide (0x80 ≤ c2 ∧ c2 < 0xC0) && validUtf8 r
      | _ => false
    else if b < 0xF5 then
      match rest with
      | c1 :: c2 :: c3 :: r =>
        (if b = 0xF0 then decide (0x90 ≤ c1 ∧ c1 < 0xC0)
         else if b = 0xF4 then decide (0x80 ≤ c1 ∧ c1 < 0x90)
         else decide (0x80 ≤ c1 ∧ c1 < 0xC0)) &&
        decide (0x80 ≤ c2 ∧ c2 < 0xC0) && decide (0x80 ≤ c3 ∧ c3 < 0xC0) &&
        validUtf8 r
      | _ => false
    else false

mutual

/-- The serializer of src/ser.rs by value shape, writing to an in-memory
sink (`to_vec`).  Each arm names its source method:
`serialize_bool` is `serialize_u8(v as u8)`; the fixed-width arms are
`write_all(&v.to_le_bytes())`; `serialize_char` is `serialize_u32(v as u32)`;
`serialize_str`/`serialize_bytes` write `Uint(len)` then the raw bytes;
`serialize_none`/`serialize_some` write the presence byte (then the value);
`serialize_seq(Some len)`/`serialize_map(Some len)` write `Uint(len)` then
the elements/entries; `serialize_tuple`, `serialize_tuple_struct` and
`serialize_struct` write the fields with no header; the `*_variant` methods
write `Uint(variant_index)` then the variant payload. -/
def serialize : Value → List Nat
  | .vBool b => [if b then 1 else 0]
  | .vU8 n => toLeBytes 1 n
  | .vU16 n => toLeBytes 2 n
  | .vU32 n => toLeBytes 4 n
  | .vU64 n => toLeBytes 8 n
  | .vI8 n => toLeBytesSigned 1 n
  | .vI16 n => toLeBytesSigned 2 n
  | .vI32 n => toLeBytesSigned 4 n
  | .vI64 n => toLeBytesSigned 8 n
  | .vF32 bits => toLeBytes 4 bits
  | .vF64 bits => toLeBytes 8 bits
  | .vChar c => toLeBytes 4 c
  | .vStr bs => encode_uint bs.length ++ bs
  | .vData bs => encode_uint bs.length ++ bs
  | .vUint n => encode_uint n
  | .vInt n => encode_int n
  | .vNone => [0]
  | .vSome v => 1 :: serialize v
  | .vSeq vs => encode_uint vs.length ++ serializeList vs
  | .vTuple vs => serializeList vs
  | .vMap es => encode_uint es.length ++ serializePairs es
  | .vEnum idx fs => encode_uint idx ++ serializeList fs

/-- Elements/fields in order (`SerializeSeq` / `SerializeTuple` /
`SerializeStruct` all forward each element to the serializer). -/
def serializeList : List Value → List Nat
  | [] => []
  | v :: vs => serialize v ++ serializeList vs

/-- Map entries in order (`SerializeMap`: key, then value). -/
def serializePairs : List (Value × Value) → List Nat
  | [] => []
  | e :: es => serialize e.1 ++ serialize e.2 ++ serializePairs es

end

/-- src/de.rs `deserialize_identifier`: the enum discriminant is read as a
BARE `Uint`, then converted `u64 → u32`, failing with the message error when
it does not fit. -/
def deserialize_identifier (input : List Nat) : Except Error (Nat × List Nat) :=
  match decode_uint input with
  | .error e => .error e
  | .ok (id, rest) =>
    if id < 2 ^ 32 then .ok (id, rest)
    else .error (.Message "Enum identifiers larger than u32 are not supported")

/-- src/de.rs `deserialize_any`: always `Err(Error::AnyUnsupported)`, for
every input, without consuming anything. -/
def deserialize_any (_input : List Nat) : Except Error (Value × List Nat) :=
  .error .AnyUnsupported

/-- src/de.rs `deserialize_ignored_any`: always `Err(Error::AnyUnsupported)`,
for every input, without consuming anything. -/
def deserialize_ignored_any (_input : List Nat) : Except Error (Value × List Nat) :=
  .error .AnyUnsupported

mutual

/-- The deserializer of src/de.rs, driven by the schema type.  Each arm names
its source method.  `deserialize_bool` reads a `u8` and maps `0` to `false`
and everything else to `true`; the fixed-width arms are `read_exact` plus
`from_le_bytes`; `deserialize_char` reads a `u32` and rejects non-scalar
code points with `Error::InvalidChar`; `deserialize_str` reads a `Uint`
length, `read_bytes`, and UTF-8-validates; `deserialize_bytes` the same
without validation; `deserialize_option` reads the presence byte through the
bool path and recurses only if nonzero; `deserialize_seq`/`deserialize_map`
read a `Uint` count then exactly that many elements/entries;
`deserialize_tuple`/`deserialize_struct` read the fields in schema order with
no header; `deserialize_enum` reads the discriminant via
`deserialize_identifier` and then the selected variant's payload (the host
visitor of a derived `Deserialize` rejects an unrecognized discriminant, which
the engine itself never sees; that rejection is modelled from the spec). -/
def deserializeTy : Ty → List Nat → Except Error (Value × List Nat)
  | .bool, input =>
    match read_exact 1 input with
    | .error e => .error e
    | .ok (buf, rest) =>
      if fromLeBytes buf = 0 then .ok (.vBool false, rest) else .ok (.vBool true, rest)
  | .u8, input =>
    match read_exact 1 input with
    | .error e => .error e
    | .ok (buf, rest) => .ok (.vU8 (fromLeBytes buf), rest)
  | .u16, input =>
    match read_exact 2 input with
    | .error e => .error e
    | .ok (buf, rest) => .ok (.vU16 (fromLeBytes buf), rest)
  | .u32, input =>
    match read_exact 4 input with
    | .error e => .error e
    | .ok (buf, rest) => .ok (.vU32 (fromLeBytes buf), rest)
  | .u64, input =>
    match read_exact 8 input with
    | .error e => .error e
    | .ok (buf, rest) => .ok (.vU64 (fromLeBytes buf), rest)
  | .i8, input =>
    match read_exact 1 input with
    | .error e => .error e
    | .ok (buf, rest) => .ok (.vI8 (fromLeBytesSigned 1 buf), rest)
  | .i16, input =>
    match read_exact 2 input with
    | .error e => .error e
    | .ok (buf, rest) => .ok (.vI16 (fromLeBytesSigned 2 buf), rest)
  | .i32, input =>
    match read_exact 4 input with
    | .error e => .error e
    | .ok (buf, rest) => .ok (.vI32 (fromLeBytesSigned 4 buf), rest)
  | .i64, input =>
    match read_exact 8 input with
    | .error e => .error e
    | .ok (buf, rest) => .ok (.vI64 (fromLeBytesSigned 8 buf), rest)
  | .f32, input =>
    match read_exact 4 input with
    | .error e => .error e
    | .ok (buf, rest) => .ok (.vF32 (fromLeBytes buf), rest)
  | .f64, input =>
    match read_exact 8 input with
    | .error e => .error e
    | .ok (buf, rest) => .ok (.vF64 (fromLeBytes buf), rest)
  | .char, input =>
    match read_exact 4 input with
    | .error e => .error e
    | .ok (buf, rest) =>
      let codepoint := fromLeBytes buf
      if codepoint < 0xD800 ∨ (0xE000 ≤ codepoint ∧ codepoint < 0x110000) then
        .ok (.vChar codepoint, rest)
      else .error .InvalidChar
  | .str, input =>
    match decode_uint input with
    | .error e => .error e
    | .ok (len, rest) =>
      match read_bytes len rest with
      | .error e => .error e
      | .ok (buf, rest2) =>
        if validUtf8 buf then .ok (.vStr buf, rest2) else .error .InvalidUtf8
  | .data, input =>
    match decode_uint input with
    | .error e => .error e
    | .ok (len, rest) =>
      match read_bytes len rest with
      | .error e => .error e
      | .ok (buf, rest2) => .ok (.vData buf, rest2)
  | .uint, input =>
    match decode_uint input with
    | .error e => .error e
    | .ok (n, rest) => .ok (.vUint n, rest)
  | .int, input =>
    match decode_int input with
    | .error e => .error e
    | .ok (n, rest) => .ok (.vInt n, rest)
  | .option t, input =>
    match read_exact 1 input with
    | .error e => .error e
    | .ok (buf, rest) =>
      if fromLeBytes buf = 0 then .ok (.vNone, rest)
      else
        match deserializeTy t rest with
        | .error e => .error e
        | .ok (v, rest2) => .ok (.vSome v, rest2)
  | .seq t, input =>
    match decode_uint input with
    | .error e => .error e
    | .ok (len, rest) =>
      match deserializeCount t len rest with
      | .error e => .error e
      | .ok (vs, rest2) => .ok (.vSeq vs, rest2)
  | .tuple ts, input =>
    match deserializeFields ts input with
    | .error e => .error e
    | .ok (vs, rest) => .ok (.vTuple vs, rest)
  | .map k v, input =>
    match decode_uint input with
    | .error e => .error e
    | .ok (len, rest) =>
      match deserializeEntries k v len rest with
      | .error e => .error e
      | .ok (es, rest2) => .ok (.vMap es, rest2)
  | .enum variants, input =>
    match deserialize_identifier input with
    | .error e => .error e
    | .ok (idx, rest) =>
      match hv : variants[idx]? with
      | some ts =>
        match deserializeFields ts rest with
        | .error e => .error e
        | .ok (fs, rest2) => .ok (.vEnum idx fs, rest2)
      | none => .error (.Message "unknown variant")
termination_by t _ => (sizeOf t, 0, 0)
decreasing_by
  all_goals first
    | decreasing_tactic
    | (simp_wf
       have hmem : ts ∈ variants := List.getElem?_mem hv
       have := List.sizeOf_lt_of_mem hmem
       decreasing_tactic)

/-- `SeqAccess` with a wire-supplied count (de.rs `deserialize_seq`): the
visitor collects exactly `n` elements. -/
def deserializeCount (t : Ty) (n : Nat) (input : List Nat) :
    Except Error (List Value × List Nat) :=
  match n with
  | 0 => .ok ([], input)
  | n + 1 =>
    match deserializeTy t input with
    | .error e => .error e
    | .ok (v, rest) =>
      match deserializeCount t n rest with
      | .error e => .error e
      | .ok (vs, rest2) => .ok (v :: vs, rest2)
termination_by (sizeOf t, 1, n)

/-- `SeqAccess` with a schema-supplied field list (de.rs `deserialize_tuple`,
`deserialize_tuple_struct`, `deserialize_struct`, and the variant payload
accessors). -/
def deserializeFields : List Ty → List Nat → Except Error (List Value × List Nat)
  | [], input => .ok ([], input)
  | t :: ts, input =>
    match deserializeTy t input with
    | .error e => .error e
    | .ok (v, rest) =>
      match deserializeFields ts rest with
      | .error e => .error e
      | .ok (vs, rest2) => .ok (v :: vs, rest2)
termination_by ts _ => (sizeOf ts, 0, 0)

/-- `MapAccess` with a wire-supplied count (de.rs `deserialize_map`): key
then value, `n` times. -/
def deserializeEntries (k v : Ty) (n : Nat) (input : List Nat) :
    Except Error (List (Value × Value) × List Nat) :=
  match n with
  | 0 => .ok ([], input)
  | n + 1 =>
    match deserializeTy k input with
    | .error e => .error e
    | .ok (kv, rest) =>
      match deserializeTy v rest with
      | .error e => .error e
      | .ok (vv, rest2) =>
        match deserializeEntries k v n rest2 with
        | .error e => .error e
        | .ok (es, rest3) => .ok ((kv, vv) :: es, rest3)
termination_by (sizeOf k + sizeOf v, 1, n)
decreasing_by
  all_goals simp_wf
  all_goals first
    | (apply Prod.Lex.right
       apply Prod.Lex.right
       omega)
    | (apply Prod.Lex.left
       first
         | (have h0 : 0 < sizeOf v := by cases v <;> simp_arith
            omega)
         | (have h0 : 0 < sizeOf k := by cases k <;> simp_arith
            omega))

end

/-! ### Little-endian and reader lemmas -/

theorem toLeBytes_length (w x : Nat) : (toLeBytes w x).length = w := by
  induction w generalizing x with
  | zero => rfl
  | succ w ih => simp [toLeBytes, ih]

theorem fromLeBytes_toLeBytes {w x : Nat} (h : x < 256 ^ w) :
    fromLeBytes (toLeBytes w x) = x := by
  induction w generalizing x with
  | zero =>
    simp only [pow_zero, Nat.lt_one_iff] at h
    simp [toLeBytes, fromLeBytes, h]
  | succ w ih =>
    simp only [toLeBytes, fromLeBytes]
    have hdiv : x / 256 < 256 ^ w := by
      rw [pow_succ] at h
      omega
    rw [ih hdiv]
    omega

theorem read_exact_of_length (bs rest : List Nat) :
    read_exact bs.length (bs ++ rest) = .ok (bs, rest) := by
  simp [read_exact, List.take_left, List.drop_left]

theorem read_exact_toLeBytes (w x : Nat) (rest : List Nat) :
    read_exact w (toLeBytes w x ++ rest) = .ok (toLeBytes w x, rest) := by
  have h := read_exact_of_length (toLeBytes w x) rest
  rwa [toLeBytes_length] at h

theorem read_bytes_of_length (bs rest : List Nat) :
    read_bytes bs.length (bs ++ rest) = .ok (bs, rest) := by
  simp [read_bytes, List.take_left, List.drop_left]

theorem read_bytes_short {len : Nat} {input : List Nat} (h : input.length < len) :
    read_bytes len input = .error .IoError := by
  simp [read_bytes]
  omega

theorem fromLeBytesSigned_toLeBytesSigned (w : Nat) (hw : 0 < w) (x : Int)
    (h1 : -(2 ^ (8 * w - 1)) ≤ x) (h2 : x < 2 ^ (8 * w - 1)) :
    fromLeBytesSigned w (toLeBytesSigned w x) = x := by
  have hsplit : (2 : Int) ^ (8 * w) = 2 ^ (8 * w - 1) * 2 := by
    rw [← pow_succ]
    congr 1
    omega
  have hPpos : (0 : Int) < 2 ^ (8 * w - 1) := by positivity
  have hmod : x % (2 : Int) ^ (8 * w) = if x < 0 then x + 2 ^ (8 * w) else x := by
    split
    · have hx1 : (x + 2 ^ (8 * w)) % 2 ^ (8 * w) = x % 2 ^ (8 * w) := by
        have h0 := Int.add_mul_emod_self_left x ((2 : Int) ^ (8 * w)) 1
        simpa using h0
      rw [← hx1, Int.emod_eq_of_lt (by omega) (by omega)]
    · exact Int.emod_eq_of_lt (by omega) (by omega)
  have h256 : (256 : Nat) ^ w = 2 ^ (8 * w) := by
    rw [show (256 : Nat) = 2 ^ 8 from rfl, ← pow_mul]
  have hcastP : (((2 : Nat) ^ (8 * w - 1) : Nat) : Int) = 2 ^ (8 * w - 1) := by
    push_cast
    ring
  have hcastA : (((2 : Nat) ^ (8 * w) : Nat) : Int) = 2 ^ (8 * w) := by
    push_cast
    ring
  have hN : (x % (2 : Int) ^ (8 * w)).toNat < 256 ^ w := by
    rw [h256, hmod]
    split <;> omega
  simp only [toLeBytesSigned, fromLeBytesSigned, fromLeBytes_toLeBytes hN]
  rw [hmod]
  split <;> split <;> omega

/-- src/ser.rs `to_vec`: serialize into a fresh in-memory buffer. -/
def to_vec (v : Value) : List Nat := serialize v

/-- src/de.rs `from_slice`: run the deserializer over an in-memory slice via
a cursor and return the decoded value (the final cursor position — any
trailing bytes — is not part of the result). -/
def from_slice (t : Ty) (input : List Nat) : Except Error Value :=
  match deserializeTy t input with
  | .error e => .error e
  | .ok (v, _) => .ok v


/-! ### Typing and the round-trip theorem -/

/-- Which host values inhabit which schema type.  The side conditions carry
the host machine-integer ranges (`uN`/`iN`), the IEEE bit-pattern widths, the
`char` scalar-value range, UTF-8 validity of a `String`'s bytes, byte range
of a `Vec<u8>`, the `u32` range of `variant_index`, and the fact that `usize`
lengths fit in `u64`. -/
inductive HasTy : Value → Ty → Prop where
  | bool (b : Bool) : HasTy (.vBool b) .bool
  | u8 {n : Nat} (h : n < 2 ^ 8) : HasTy (.vU8 n) .u8
  | u16 {n : Nat} (h : n < 2 ^ 16) : HasTy (.vU16 n) .u16
  | u32 {n : Nat} (h : n < 2 ^ 32) : HasTy (.vU32 n) .u32
  | u64 {n : Nat} (h : n < 2 ^ 64) : HasTy (.vU64 n) .u64
  | i8 {n : Int} (h1 : -(2 ^ 7) ≤ n) (h2 : n < 2 ^ 7) : HasTy (.vI8 n) .i8
  | i16 {n : Int} (h1 : -(2 ^ 15) ≤ n) (h2 : n < 2 ^ 15) : HasTy (.vI16 n) .i16
  | i32 {n : Int} (h1 : -(2 ^ 31) ≤ n) (h2 : n < 2 ^ 31) : HasTy (.vI32 n) .i32
  | i64 {n : Int} (h1 : -(2 ^ 63) ≤ n) (h2 : n < 2 ^ 63) : HasTy (.vI64 n) .i64
  | f32 {bits : Nat} (h : bits < 2 ^ 32) : HasTy (.vF32 bits) .f32
  | f64 {bits : Nat} (h : bits < 2 ^ 64) : HasTy (.vF64 bits) .f64
  | char {c : Nat} (h : c < 0xD800 ∨ (0xE000 ≤ c ∧ c < 0x110000)) :
      HasTy (.vChar c) .char
  | str {bs : List Nat} (hval : validUtf8 bs = true) (hlen : bs.length < 2 ^ 64) :
      HasTy (.vStr bs) .str
  | data {bs : List Nat} (hb : ∀ b ∈ bs, b < 256) (hlen : bs.length < 2 ^ 64) :
      HasTy (.vData bs) .data
  | uint {n : Nat} (h : n < 2 ^ 64) : HasTy (.vUint n) .uint
  | int {n : Int} (h1 : -(2 ^ 63) ≤ n) (h2 : n < 2 ^ 63) : HasTy (.vInt n) .int
  | optNone (t : Ty) : HasTy .vNone (.option t)
  | optSome {v : Value} {t : Ty} (h : HasTy v t) : HasTy (.vSome v) (.option t)
  | seq {vs : List Value} {t : Ty} (hall : ∀ v ∈ vs, HasTy v t)
      (hlen : vs.length < 2 ^ 64) : HasTy (.vSeq vs) (.seq t)
  | tuple {vs : List Value} {ts : List Ty} (hlen : vs.length = ts.length)
      (hall : ∀ p ∈ vs.zip ts, HasTy p.1 p.2) : HasTy (.vTuple vs) (.tuple ts)
  | map {es : List (Value × Value)} {k v : Ty}
      (hk : ∀ e ∈ es, HasTy e.1 k) (hv : ∀ e ∈ es, HasTy e.2 v)
      (hlen : es.length < 2 ^ 64) : HasTy (.vMap es) (.map k v)
  | enum {idx : Nat} {fs : List Value} {variants : List (List Ty)} {ts : List Ty}
      (hts : variants[idx]? = some ts) (hu32 : idx < 2 ^ 32)
      (hlen : fs.length = ts.length) (hall : ∀ p ∈ fs.zip ts, HasTy p.1 p.2) :
      HasTy (.vEnum idx fs) (.enum variants)

theorem toLeBytesSigned_length (w : Nat) (x : Int) :
    (toLeBytesSigned w x).length = w := by
  rw [toLeBytesSigned, toLeBytes_length]

theorem read_exact_toLeBytesSigned (w : Nat) (x : Int) (rest : List Nat) :
    read_exact w (toLeBytesSigned w x ++ rest) = .ok (toLeBytesSigned w x, rest) := by
  have h := read_exact_of_length (toLeBytesSigned w x) rest
  rwa [toLeBytesSigned_length] at h

theorem read_exact_one (b : Nat) (l : List Nat) :
    read_exact 1 (b :: l) = .ok ([b], l) := by
  simp [read_exact]

theorem deserialize_identifier_encode {id : Nat} (h : id < 2 ^ 32) (rest : List Nat) :
    deserialize_identifier (encode_uint id ++ rest) = .ok (id, rest) := by
  simp only [deserialize_identifier, decode_encode_uint (by omega : id < 2 ^ 64) rest]
  split
  · rfl
  · rename_i hneg
    exact absurd (show id < 2 ^ 32 from h) hneg

theorem deserializeCount_serializeList (t : Ty) (vs : List Value)
    (hall : ∀ v ∈ vs, ∀ rest, deserializeTy t (serialize v ++ rest) = .ok (v, rest)) :
    ∀ rest, deserializeCount t vs.length (serializeList vs ++ rest) = .ok (vs, rest) := by
  induction vs with
  | nil =>
    intro rest
    simp [serializeList, deserializeCount]
  | cons v vs ih =>
    intro rest
    simp only [serializeList, List.append_assoc, List.length_cons, deserializeCount,
      hall v (by simp) (serializeList vs ++ rest),
      ih (fun u hu r => hall u (by simp [hu]) r) rest]

theorem deserializeFields_serializeList (ts : List Ty) (vs : List Value)
    (hlen : vs.length = ts.length)
    (hall : ∀ p ∈ vs.zip ts, ∀ rest,
      deserializeTy p.2 (serialize p.1 ++ rest) = .ok (p.1, rest)) :
    ∀ rest, deserializeFields ts (serializeList vs ++ rest) = .ok (vs, rest) := by
  induction ts generalizing vs with
  | nil =>
    cases vs with
    | nil =>
      intro rest
      simp [serializeList, deserializeFields]
    | cons v vs => simp at hlen
  | cons t ts ih =>
    cases vs with
    | nil => simp at hlen
    | cons v vs =>
      intro rest
      simp only [serializeList, List.append_assoc, deserializeFields,
        hall (v, t) (by simp) (serializeList vs ++ rest),
        ih vs (by simpa using hlen) (fun p hp r => hall p (by simp [hp]) r) rest]

theorem deserializeEntries_serializePairs (k v : Ty) (es : List (Value × Value))
    (hk : ∀ e ∈ es, ∀ rest, deserializeTy k (serialize e.1 ++ rest) = .ok (e.1, rest))
    (hv : ∀ e ∈ es, ∀ rest, deserializeTy v (serialize e.2 ++ rest) = .ok (e.2, rest)) :
    ∀ rest, deserializeEntries k v es.length (serializePairs es ++ rest) = .ok (es, rest) := by
  induction es with
  | nil =>
    intro rest
    simp [serializePairs, deserializeEntries]
  | cons e es ih =>
    intro rest
    simp only [serializePairs, List.append_assoc, List.length_cons, deserializeEntries,
      hk e (by simp) (serialize e.2 ++ (serializePairs es ++ rest)),
      hv e (by simp) (serializePairs es ++ rest),
      ih (fun u hu r => hk u (by simp [hu]) r) (fun u hu r => hv u (by simp [hu]) r) rest]

/-- Round trip: deserializing the serialization of any well-typed value
yields the value back and consumes exactly its encoding. -/
theorem deserialize_serialize {v : Value} {t : Ty} (h : HasTy v t) :
    ∀ rest, deserializeTy t (serialize v ++ rest) = .ok (v, rest) := by
  induction h with
  | bool b =>
    intro rest
    cases b <;> simp [serialize, deserializeTy, read_exact, fromLeBytes]
  | u8 h =>
    rename_i n
    intro rest
    have hb : n < 256 ^ 1 := by simpa using h
    simp only [serialize, deserializeTy, read_exact_toLeBytes, fromLeBytes_toLeBytes hb]
  | u16 h =>
    rename_i n
    intro rest
    have hb : n < 256 ^ 2 := lt_of_lt_of_le h (by norm_num)
    simp only [serialize, deserializeTy, read_exact_toLeBytes, fromLeBytes_toLeBytes hb]
  | u32 h =>
    rename_i n
    intro rest
    have hb : n < 256 ^ 4 := lt_of_lt_of_le h (by norm_num)
    simp only [serialize, deserializeTy, read_exact_toLeBytes, fromLeBytes_toLeBytes hb]
  | u64 h =>
    rename_i n
    intro rest
    have hb : n < 256 ^ 8 := lt_of_lt_of_le h (by norm_num)
    simp only [serialize, deserializeTy, read_exact_toLeBytes, fromLeBytes_toLeBytes hb]
  | i8 h1 h2 =>
    rename_i n
    intro rest
    have hrt := fromLeBytesSigned_toLeBytesSigned 1 (by norm_num) n
      (by simpa using h1) (by simpa using h2)
    simp only [serialize, deserializeTy, read_exact_toLeBytesSigned, hrt]
  | i16 h1 h2 =>
    rename_i n
    intro rest
    have hrt := fromLeBytesSigned_toLeBytesSigned 2 (by norm_num) n
      (by simpa using h1) (by simpa using h2)
    simp only [serialize, deserializeTy, read_exact_toLeBytesSigned, hrt]
  | i32 h1 h2 =>
    rename_i n
    intro rest
    have hrt := fromLeBytesSigned_toLeBytesSigned 4 (by norm_num) n
      (by simpa using h1) (by simpa using h2)
    simp only [serialize, deserializeTy, read_exact_toLeBytesSigned, hrt]
  | i64 h1 h2 =>
    rename_i n
    intro rest
    have hrt := fromLeBytesSigned_toLeBytesSigned 8 (by norm_num) n
      (by simpa using h1) (by simpa using h2)
    simp only [serialize, deserializeTy, read_exact_toLeBytesSigned, hrt]
  | f32 h =>
    rename_i bits
    intro rest
    have hb : bits < 256 ^ 4 := lt_of_lt_of_le h (by norm_num)
    simp only [serialize, deserializeTy, read_exact_toLeBytes, fromLeBytes_toLeBytes hb]
  | f64 h =>
    rename_i bits
    intro rest
    have hb : bits < 256 ^ 8 := lt_of_lt_of_le h (by norm_num)
    simp only [serialize, deserializeTy, read_exact_toLeBytes, fromLeBytes_toLeBytes hb]
  | char h =>
    rename_i c
    intro rest
    have hb : c < 256 ^ 4 := by
      have e1 : (256 : Nat) ^ 4 = 4294967296 := by norm_num
      rcases h with h | h <;> omega
    simp only [serialize, deserializeTy, read_exact_toLeBytes, fromLeBytes_toLeBytes hb]
    rw [if_pos h]
  | str hval hlen =>
    intro rest
    simp only [serialize, deserializeTy, List.append_assoc,
      decode_encode_uint hlen, read_bytes_of_length]
    simp [hval]
  | data hb hlen =>
    intro rest
    simp only [serialize, deserializeTy, List.append_assoc,
      decode_encode_uint hlen, read_bytes_of_length]
  | uint h =>
    intro rest
    simp only [serialize, deserializeTy, decode_encode_uint h]
  | int h1 h2 =>
    intro rest
    simp only [serialize, deserializeTy, decode_encode_int h1 h2]
  | optNone t =>
    intro rest
    simp [serialize, deserializeTy, read_exact_one, fromLeBytes]
  | optSome hsub ih =>
    intro rest
    simp only [serialize, List.cons_append, deserializeTy, read_exact_one, fromLeBytes]
    norm_num
    rw [ih rest]
  | seq hall hlen ih =>
    intro rest
    simp only [serialize, deserializeTy, List.append_assoc, decode_encode_uint hlen]
    rw [deserializeCount_serializeList _ _ ih rest]
  | tuple hlen hall ih =>
    intro rest
    simp only [serialize, deserializeTy]
    rw [deserializeFields_serializeList _ _ hlen ih rest]
  | map hk hv hlen ihk ihv =>
    intro rest
    simp only [serialize, deserializeTy, List.append_assoc, decode_encode_uint hlen]
    rw [deserializeEntries_serializePairs _ _ _ ihk ihv rest]
  | enum hts hu32 hlen hall ih =>
    rename_i idx fs variants ts
    intro rest
    simp only [serialize, deserializeTy, List.append_assoc,
      deserialize_identifier_encode hu32]
    split
    · rename_i ts2 heq
      have hsome : some ts2 = some ts := by rw [← heq, hts]
      injection hsome with hsame
      subst hsame
      simp only [deserializeFields_serializeList _ _ hlen ih rest]
    · rename_i heq
      rw [hts] at heq
      exact absurd heq (by simp)


/-! ### Serializer length-requirement entry points -/

/-- src/ser.rs `serialize_seq`:
`Uint(len.ok_or(Error::SequenceLengthRequired)? as u64).serialize(..)` — a
missing length aborts with `SequenceLengthRequired` before anything is
written; a known length writes the `uint` count header (`usize` is at most 64
bits, so `len as u64` is the identity). -/
def serialize_seq (len : Option Nat) : Except Error (List Nat) :=
  match len with
  | none => .error .SequenceLengthRequired
  | some n => .ok (encode_uint n)

/-- src/ser.rs `serialize_map`:
`Uint(len.ok_or(Error::MapLengthRequired)? as u64).serialize(..)`. -/
def serialize_map (len : Option Nat) : Except Error (List Nat) :=
  match len with
  | none => .error .MapLengthRequired
  | some n => .ok (encode_uint n)

theorem deserialize_identifier_large {id : Nat} (h32 : 2 ^ 32 ≤ id)
    (h64 : id < 2 ^ 64) (rest : List Nat) :
    deserialize_identifier (encode_uint id ++ rest)
      = .error (.Message "Enum identifiers larger than u32 are not supported") := by
  simp only [deserialize_identifier, decode_encode_uint h64 rest]
  split
  · rename_i hlt
    exact absurd hlt (by omega)
  · rfl

/-! ### Claim theorems: round trip and interface behavior -/

/-- C1: for every representable value `v` of each wire type (fixed-width
integers, floats as bit patterns, bool, char, string, bytes, optionals,
sequences, tuples/structs, maps, uint/int, enums), deserializing the
serialized bytes recovers `v` exactly: `from_slice (to_vec v) = .ok v`.
Floats are modelled by their IEEE-754 bit patterns, so equality here is
bit-pattern equality (NaN payloads and both infinities included). -/
theorem c1_roundtrip {v : Value} {t : Ty} (h : HasTy v t) :
    from_slice t (to_vec v) = .ok v := by
  have hd := deserialize_serialize h []
  rw [List.append_nil] at hd
  simp [from_slice, to_vec, hd]

/-- Witness for C1 at a concrete composite value: a struct holding a bool and
an optional `u8`. -/
theorem c1_roundtrip_witness :
    from_slice (.tuple [.bool, .option .u8])
      (to_vec (.vTuple [.vBool true, .vSome (.vU8 7)]))
      = .ok (.vTuple [.vBool true, .vSome (.vU8 7)]) :=
  c1_roundtrip (HasTy.tuple (by simp)
    (by
      intro p hp
      simp [List.zip] at hp
      rcases hp with h | h <;> subst h
      · exact HasTy.bool true
      · exact HasTy.optSome (HasTy.u8 (by norm_num))))

/-- C5: `serialize_seq` with an unknown length returns
`Error::SequenceLengthRequired` and `serialize_map` with an unknown length
returns `Error::MapLengthRequired`; in neither case is a successful encoding
produced. -/
theorem c5_length_required :
    serialize_seq none = .error .SequenceLengthRequired ∧
    serialize_map none = .error .MapLengthRequired := by
  exact ⟨rfl, rfl⟩

/-- C6 counterexample: decoding an `optional<u8>` whose presence byte is `2`
does not return an invalid-boolean error — it succeeds and treats the value
as present (the crate's bool decode is lenient: any nonzero byte is `true`). -/
theorem c6_option_strict_counterexample :
    from_slice (.option .u8) [2, 5] = .ok (.vSome (.vU8 5)) := by
  simp [from_slice, deserializeTy, read_exact, fromLeBytes]

/-- C6 (amended): when decoding an `optional<T>`, the presence byte is read
through the lenient bool decoder: `0` means absent, and any nonzero byte
means present (the decoder then recurses into `T`, propagating its result);
no invalid-boolean error exists on this path. -/
theorem c6_option_presence_byte :
    (∀ (t : Ty) (rest : List Nat),
      deserializeTy (.option t) (0 :: rest) = .ok (.vNone, rest)) ∧
    (∀ (t : Ty) (b : Nat) (rest rest2 : List Nat) (v : Value), b ≠ 0 →
      deserializeTy t rest = .ok (v, rest2) →
      deserializeTy (.option t) (b :: rest) = .ok (.vSome v, rest2)) ∧
    (∀ (t : Ty) (b : Nat) (rest : List Nat) (e : Error), b ≠ 0 →
      deserializeTy t rest = .error e →
      deserializeTy (.option t) (b :: rest) = .error e) := by
  refine ⟨fun t rest => ?_, fun t b rest rest2 v hb hd => ?_, fun t b rest e hb hd => ?_⟩
  · simp [deserializeTy, read_exact_one, fromLeBytes]
  · simp [deserializeTy, read_exact_one, fromLeBytes, hb, hd]
  · simp [deserializeTy, read_exact_one, fromLeBytes, hb, hd]

/-- Witness for C6 (amended) at presence byte `3` over `u8`. -/
theorem c6_option_presence_byte_witness :
    deserializeTy (.option .u8) (0 :: [9]) = .ok (.vNone, [9]) ∧
    deserializeTy (.option .u8) (3 :: [5]) = .ok (.vSome (.vU8 5), []) ∧
    deserializeTy (.option .u8) (3 :: []) = .error .IoError :=
  ⟨c6_option_presence_byte.1 .u8 [9],
    c6_option_presence_byte.2.1 .u8 3 [5] [] (.vU8 5) (by norm_num)
      (by simp [deserializeTy, read_exact_one, fromLeBytes]),
    c6_option_presence_byte.2.2 .u8 3 [] .IoError (by norm_num)
      (by simp [deserializeTy, read_exact])⟩

/-- C7: booleans encode `false` as the single byte `0` and `true` as the
single byte `1`; on decode, byte `0` yields `false` and every nonzero byte
yields `true` (the lenient policy), so `from_slice` of `[2]` as a bool
succeeds with `true`. -/
theorem c7_bool_codec :
    serialize (.vBool false) = [0] ∧ serialize (.vBool true) = [1] ∧
    (∀ rest, deserializeTy .bool (0 :: rest) = .ok (.vBool false, rest)) ∧
    (∀ b rest, b ≠ 0 → deserializeTy .bool (b :: rest) = .ok (.vBool true, rest)) ∧
    from_slice .bool [2] = .ok (.vBool true) := by
  refine ⟨by simp [serialize], by simp [serialize], fun rest => ?_,
    fun b rest hb => ?_, ?_⟩
  · simp [deserializeTy, read_exact_one, fromLeBytes]
  · simp [deserializeTy, read_exact_one, fromLeBytes, hb]
  · simp [from_slice, deserializeTy, read_exact, fromLeBytes]

/-- Witness for C7 at the nonzero byte `2`. -/
theorem c7_bool_codec_witness :
    deserializeTy .bool (2 :: []) = .ok (.vBool true, []) :=
  c7_bool_codec.2.2.2.1 2 [] (by norm_num)

/-- C8: every enum value is encoded as its variant index as a `uint` varint
followed by the variant payload (empty for unit variants, the single value
for newtype variants, the fields in order for tuple and struct variants);
on decode the discriminant is read back as a `uint`, and any discriminant
exceeding `u32::MAX` is rejected with an error. -/
theorem c8_enum_discriminant :
    (∀ (idx : Nat) (fs : List Value),
      serialize (.vEnum idx fs) = encode_uint idx ++ serializeList fs) ∧
    (∀ (id : Nat) (rest : List Nat), id < 2 ^ 32 →
      deserialize_identifier (encode_uint id ++ rest) = .ok (id, rest)) ∧
    (∀ (id : Nat) (rest : List Nat) (variants : List (List Ty)),
      2 ^ 32 ≤ id → id < 2 ^ 64 →
      deserializeTy (.enum variants) (encode_uint id ++ rest)
        = .error (.Message "Enum identifiers larger than u32 are not supported")) := by
  refine ⟨fun idx fs => by simp [serialize], fun id rest h => ?_,
    fun id rest variants h32 h64 => ?_⟩
  · exact deserialize_identifier_encode h rest
  · simp [deserializeTy, deserialize_identifier_large h32 h64 rest]

/-- Witness for C8: discriminant `3` decodes back, and the first discriminant
past `u32::MAX` is rejected. -/
theorem c8_enum_discriminant_witness :
    deserialize_identifier (encode_uint 3 ++ [7]) = .ok (3, [7]) ∧
    deserializeTy (.enum []) (encode_uint (2 ^ 32) ++ [])
      = .error (.Message "Enum identifiers larger than u32 are not supported") :=
  ⟨c8_enum_discriminant.2.1 3 [7] (by norm_num),
    c8_enum_discriminant.2.2 (2 ^ 32) [] [] (le_refl _) (by norm_num)⟩

/-- C9: a declared length that exceeds the bytes actually available always
produces an I/O (unexpected-end) error — for the raw reader and for the
length-prefixed `data` and `string` decode paths — and the claimed length is
not trusted for the up-front allocation: the initial buffer capacity is
`min len 4096 ≤ 4096`. -/
theorem c9_truncated_input_errors :
    (∀ len : Nat, read_bytes_capacity len ≤ 4096) ∧
    (∀ (len : Nat) (input : List Nat), input.length < len →
      read_bytes len input = .error .IoError) ∧
    (∀ (len : Nat) (rest : List Nat), len < 2 ^ 64 → rest.length < len →
      deserializeTy .data (encode_uint len ++ rest) = .error .IoError) ∧
    (∀ (len : Nat) (rest : List Nat), len < 2 ^ 64 → rest.length < len →
      deserializeTy .str (encode_uint len ++ rest) = .error .IoError) := by
  refine ⟨fun len => min_le_right len 4096, fun len input h => read_bytes_short h,
    fun len rest h64 hshort => ?_, fun len rest h64 hshort => ?_⟩
  · simp [deserializeTy, decode_encode_uint h64 rest, read_bytes_short hshort]
  · simp [deserializeTy, decode_encode_uint h64 rest, read_bytes_short hshort]

/-- Witness for C9: a 3-byte stream declaring 5 bytes of data. -/
theorem c9_truncated_input_errors_witness :
    read_bytes 5 [1, 2, 3] = .error .IoError ∧
    deserializeTy .data (encode_uint 5 ++ [1, 2, 3]) = .error .IoError ∧
    deserializeTy .str (encode_uint 5 ++ [104, 105]) = .error .IoError :=
  ⟨c9_truncated_input_errors.2.1 5 [1, 2, 3] (by norm_num),
    c9_truncated_input_errors.2.2.1 5 [1, 2, 3] (by norm_num) (by norm_num),
    c9_truncated_input_errors.2.2.2 5 [104, 105] (by norm_num) (by norm_num)⟩

/-- C10 counterexample: the "read an identifier" operation is not rejected —
`deserialize_identifier` on the input `[0]` succeeds with discriminant `0`
instead of returning an error. -/
theorem c10_identifier_counterexample :
    deserialize_identifier [0] = .ok (0, []) := by
  simp [deserialize_identifier, decode_uint, uint_visit_seq]

/-- C10 (amended): `deserialize_any` and `deserialize_ignored_any` always
return `Error::AnyUnsupported`, for every input, without consuming anything;
`deserialize_identifier`, however, is implemented — it reads the enum
discriminant as a `uint` and fails only when the value exceeds `u32::MAX`. -/
theorem c10_any_rejected :
    (∀ input, deserialize_any input = .error .AnyUnsupported) ∧
    (∀ input, deserialize_ignored_any input = .error .AnyUnsupported) ∧
    (∀ (id : Nat) (rest : List Nat), id < 2 ^ 32 →
      deserialize_identifier (encode_uint id ++ rest) = .ok (id, rest)) :=
  ⟨fun _ => rfl, fun _ => rfl, fun id rest h => deserialize_identifier_encode h rest⟩

/-- Witness for C10 (amended) at discriminant `0`. -/
theorem c10_any_rejected_witness :
    deserialize_any [1, 2] = .error .AnyUnsupported ∧
    deserialize_ignored_any [1, 2] = .error .AnyUnsupported ∧
    deserialize_identifier (encode_uint 0 ++ [9]) = .ok (0, [9]) :=
  ⟨c10_any_rejected.1 [1, 2], c10_any_rejected.2.1 [1, 2],
    c10_any_rejected.2.2 0 [9] (by norm_num)⟩

end SerdeBare
